import Mathlib

/-!
Verification of the beacon-chain state-transition engine of this repository
against its natural-language specification.

The Go sources are shallowly embedded: `uint64` values become `Nat` with an
explicit `% 2^64` wherever the Go code can overflow, Go slices become `List`,
Go maps with zero-value defaults become total functions, and fallible Go
functions return `Except`.  Functions of packages that are not part of the
provided sources (`helpers`, `blocks`, `validators`, `bytesutil`, `hashutil`,
`params`) are either taken as explicit parameters or modelled from the spec;
each such definition says so in its doc comment.
-/

namespace Prysm

/-- Word size of the Go `uint64` arithmetic used throughout the engine. -/
def U64 : Nat := 2 ^ 64

/-- Eth1Data record (`pb.Eth1Data`): deposit root and block hash. -/
structure Eth1Data where
  depositRootHash32 : List Nat
  blockHash32 : List Nat
  deriving Repr, DecidableEq

/-- Eth1DataVote record (`pb.Eth1DataVote`): a vote and its accumulated count. -/
structure Eth1DataVote where
  eth1Data : Eth1Data
  voteCount : Nat
  deriving Repr, DecidableEq

/-- Crosslink record (`pb.Crosslink`): epoch and shard data root. -/
structure Crosslink where
  epoch : Nat
  crosslinkDataRootHash32 : List Nat
  deriving Repr, DecidableEq

/-- AttestationData (`pb.AttestationData`), restricted to the fields read by
the embedded epoch-processing functions. -/
structure AttestationData where
  slot : Nat
  shard : Nat
  justifiedEpoch : Nat
  justifiedBlockRootHash32 : List Nat
  epochBoundaryRootHash32 : List Nat
  beaconBlockRootHash32 : List Nat
  shardBlockRootHash32 : List Nat
  deriving Repr, DecidableEq

/-- PendingAttestation (`pb.PendingAttestation`), restricted to the fields read
by the embedded epoch-processing functions. -/
structure PendingAttestation where
  data : AttestationData
  deriving Repr, DecidableEq

/-- BeaconState (`pb.BeaconState`), restricted to the fields read or written by
the embedded functions. -/
structure BeaconState where
  slot : Nat
  justificationBitfield : Nat
  previousJustifiedEpoch : Nat
  justifiedEpoch : Nat
  finalizedEpoch : Nat
  validatorRegistryUpdateEpoch : Nat
  currentShufflingStartShard : Nat
  latestCrosslinks : List Crosslink
  latestEth1Data : Eth1Data
  eth1DataVotes : List Eth1DataVote
  deriving Repr, DecidableEq

/-- Modelled from the spec: `helpers.CurrentEpoch` (the `helpers` package is
not among the provided sources); an epoch is a fixed-length run of slots, so
the current epoch is the slot divided by the slots-per-epoch parameter. -/
def currentEpoch (slotsPerEpoch : Nat) (s : BeaconState) : Nat :=
  s.slot / slotsPerEpoch

/-- Modelled from the spec: `helpers.PrevEpoch`, the epoch before the current
one.  The Go code uses `uint64` subtraction; the theorems below only visit
epochs ≥ 4, where truncated subtraction agrees with it. -/
def prevEpoch (slotsPerEpoch : Nat) (s : BeaconState) : Nat :=
  currentEpoch slotsPerEpoch s - 1

/-- Modelled from the spec: `helpers.NextEpoch`, the epoch after the current
one. -/
def nextEpoch (slotsPerEpoch : Nat) (s : BeaconState) : Nat :=
  currentEpoch slotsPerEpoch s + 1

/-- Modelled from the spec: `helpers.StartSlot`, the first slot of an epoch. -/
def startSlot (slotsPerEpoch : Nat) (epoch : Nat) : Nat :=
  epoch * slotsPerEpoch

/-- The vote-count test of `ProcessEth1Data`
(`beacon-chain/core/epoch/epoch_processing.go`):
`eth1DataVote.VoteCount*2 > SlotsPerEpoch*EpochsPerEth1VotingPeriod`, with both
products computed in `uint64`. -/
def eth1VoteQualifies (slotsPerEpoch epochsPerEth1VotingPeriod : Nat)
    (v : Eth1DataVote) : Bool :=
  (v.voteCount * 2) % U64 > (slotsPerEpoch * epochsPerEth1VotingPeriod) % U64

/-- `ProcessEth1Data` (`beacon-chain/core/epoch/epoch_processing.go`): walk the
accumulated votes, adopting the eth1 data of every vote whose doubled count
clears the voting-period slot budget (the last such vote in list order wins),
then clear the vote list. -/
def processEth1Data (slotsPerEpoch epochsPerEth1VotingPeriod : Nat)
    (s : BeaconState) : BeaconState :=
  { s with
    latestEth1Data :=
      s.eth1DataVotes.foldl
        (fun latest v =>
          if eth1VoteQualifies slotsPerEpoch epochsPerEth1VotingPeriod v then
            v.eth1Data
          else latest)
        s.latestEth1Data
    eth1DataVotes := [] }

/-- Typed failures of the state-transition engine; the Go code reports these
as wrapped `error` strings, modelled here as tagged constructors. -/
inductive TErr where
  | slotMismatch (blockSlot stateSlot : Nat)
  | verificationFailure (code : Nat)
  | invalidOperation (code : Nat)
  | missingRoot (slot : Nat)
  deriving Repr, DecidableEq

/-- BeaconBlock (`pb.BeaconBlock`), restricted to the slot field read by the
embedded driver; the block body is consumed only by the abstract step
functions. -/
structure BeaconBlock where
  slot : Nat
  deriving Repr, DecidableEq

/-- Modelled from the spec: the per-block operation steps of the `blocks`
package (`b.VerifyProposerSignature`, `b.ProcessBlockRandao`,
`b.ProcessProposerSlashings`, `b.ProcessEth1Data`,
`b.ProcessAttesterSlashings`, `b.ProcessBlockAttestations`,
`b.ProcessValidatorDeposits`, `b.ProcessValidatorExits`), which are not among
the provided sources.  Per the spec each step is a function taking an owned
state value and returning a new owned value or an error; the eth1-vote step is
infallible in the caller's source. -/
structure BlockSteps where
  verifyProposerSignature : BeaconBlock → Except TErr Unit
  processBlockRandao : BeaconState → BeaconBlock → Except TErr BeaconState
  processProposerSlashings : BeaconState → BeaconBlock → Bool → Except TErr BeaconState
  processEth1DataVote : BeaconState → BeaconBlock → BeaconState
  processAttesterSlashings : BeaconState → BeaconBlock → Bool → Except TErr BeaconState
  processBlockAttestations : BeaconState → BeaconBlock → Bool → Except TErr BeaconState
  processValidatorDeposits : BeaconState → BeaconBlock → Except TErr BeaconState
  processValidatorExits : BeaconState → BeaconBlock → Bool → Except TErr BeaconState

/-- `ProcessBlock` (`state` package of the sources): check the block slot,
optionally the proposer signature, then apply randao, proposer slashings, the
eth1 vote, attester slashings, attestations, deposits and exits strictly in
this order, short-circuiting on the first failure. -/
def processBlock (steps : BlockSteps) (verifySignatures : Bool)
    (state : BeaconState) (block : BeaconBlock) : Except TErr BeaconState :=
  if block.slot ≠ state.slot then
    Except.error (TErr.slotMismatch block.slot state.slot)
  else
    match (if verifySignatures then steps.verifyProposerSignature block
           else Except.ok ()) with
    | Except.error e => Except.error e
    | Except.ok _ =>
      match steps.processBlockRandao state block with
      | Except.error e => Except.error e
      | Except.ok s1 =>
        match steps.processProposerSlashings s1 block verifySignatures with
        | Except.error e => Except.error e
        | Except.ok s2 =>
          match steps.processAttesterSlashings (steps.processEth1DataVote s2 block)
              block verifySignatures with
          | Except.error e => Except.error e
          | Except.ok s4 =>
            match steps.processBlockAttestations s4 block verifySignatures with
            | Except.error e => Except.error e
            | Except.ok s5 =>
              match steps.processValidatorDeposits s5 block with
              | Except.error e => Except.error e
              | Except.ok s6 =>
                match steps.processValidatorExits s6 block verifySignatures with
                | Except.error e => Except.error e
                | Except.ok s7 => Except.ok s7

/-- `CanProcessEpoch` (the sources' `epoch` package variant used by the
driver): the epoch pass is eligible when `state.Slot % EpochLength == 0`. -/
def canProcessEpoch (epochLength : Nat) (s : BeaconState) : Bool :=
  s.slot % epochLength == 0

/-- `ExecuteStateTransition` (`state` package of the sources): increment the
slot (in `uint64`), record block roots, and if a block is present process it
and, when the epoch trigger holds on the resulting state, run the epoch pass.
`processBlockRoots` and `processEpoch` stand for the source's
`b.ProcessBlockRoots` and `ProcessEpoch` (the latter's full pipeline is beyond
the fields modelled here). -/
def executeStateTransition (steps : BlockSteps)
    (processBlockRoots : BeaconState → List Nat → BeaconState)
    (processEpoch : BeaconState → Except TErr BeaconState)
    (epochLength : Nat) (verifySignatures : Bool)
    (beaconState : BeaconState) (prevBlockRoot : List Nat)
    (block : Option BeaconBlock) : Except TErr BeaconState :=
  let s1 := { beaconState with slot := (beaconState.slot + 1) % U64 }
  let s2 := processBlockRoots s1 prevBlockRoot
  match block with
  | none => Except.ok s2
  | some blk =>
    match processBlock steps verifySignatures s2 blk with
    | Except.error e => Except.error e
    | Except.ok s3 =>
      if canProcessEpoch epochLength s3 then processEpoch s3 else Except.ok s3

/-- The previous-epoch boundary supermajority test of `ProcessJustification`
(`beacon-chain/core/epoch/epoch_processing.go`):
`3*prevEpochBoundaryAttestingBalance >= 2*prevTotalBalance`, with both
products computed in `uint64`. -/
abbrev prevJustCond (prevEpochBoundaryAttestingBalance prevTotalBalance : Nat) : Prop :=
  (3 * prevEpochBoundaryAttestingBalance) % U64 ≥ (2 * prevTotalBalance) % U64

/-- The current-epoch boundary supermajority test of `ProcessJustification`
(`beacon-chain/core/epoch/epoch_processing.go`):
`3*thisEpochBoundaryAttestingBalance >= 2*totalBalance`, with both products
computed in `uint64`. -/
abbrev currJustCond (thisEpochBoundaryAttestingBalance totalBalance : Nat) : Prop :=
  (3 * thisEpochBoundaryAttestingBalance) % U64 ≥ (2 * totalBalance) % U64

/-- `ProcessJustification` (`beacon-chain/core/epoch/epoch_processing.go`,
lines 121-179): shift the justification bitfield left one bit (in `uint64`),
set bit 1 and pick the previous epoch as justified candidate on the
previous-boundary supermajority, set bit 0 and pick the current epoch on the
current-boundary supermajority (the current epoch overriding), apply the four
finality bit-pattern rules in order, then roll
`previous_justified_epoch ← justified_epoch` and
`justified_epoch ← new_justified_epoch`. -/
def processJustification (slotsPerEpoch : Nat) (s : BeaconState)
    (thisEpochBoundaryAttestingBalance prevEpochBoundaryAttestingBalance
      prevTotalBalance totalBalance : Nat) : BeaconState :=
  let prevE := prevEpoch slotsPerEpoch s
  let currE := currentEpoch slotsPerEpoch s
  let bf1 := (s.justificationBitfield * 2) % U64
  let bf2 :=
    if prevJustCond prevEpochBoundaryAttestingBalance prevTotalBalance then
      bf1 ||| 2
    else bf1
  let bf3 :=
    if currJustCond thisEpochBoundaryAttestingBalance totalBalance then
      bf2 ||| 1
    else bf2
  let newJustifiedEpoch :=
    if currJustCond thisEpochBoundaryAttestingBalance totalBalance then currE
    else if prevJustCond prevEpochBoundaryAttestingBalance prevTotalBalance then prevE
    else s.justifiedEpoch
  let fin1 :=
    if s.previousJustifiedEpoch = prevE - 2 ∧ (bf3 / 2) % 8 = 7 then
      s.previousJustifiedEpoch
    else s.finalizedEpoch
  let fin2 :=
    if s.previousJustifiedEpoch = prevE - 1 ∧ (bf3 / 2) % 4 = 3 then
      s.previousJustifiedEpoch
    else fin1
  let fin3 :=
    if s.justifiedEpoch = prevE - 1 ∧ bf3 % 8 = 7 then s.justifiedEpoch
    else fin2
  let fin4 :=
    if s.justifiedEpoch = prevE ∧ bf3 % 4 = 3 then s.justifiedEpoch
    else fin3
  { s with
    justificationBitfield := bf3
    finalizedEpoch := fin4
    previousJustifiedEpoch := s.justifiedEpoch
    justifiedEpoch := newJustifiedEpoch }

/-- The per-epoch balance inputs handed to the justification pass; they mirror
the four balance arguments of `ProcessJustification`. -/
structure EpochBalances where
  thisEpochBoundaryAttestingBalance : Nat
  prevEpochBoundaryAttestingBalance : Nat
  prevTotalBalance : Nat
  totalBalance : Nat
  deriving Repr, DecidableEq

/-- One epoch-processing transition as far as finality is concerned: run the
justification/finalization pass of `ProcessEpoch` at an epoch boundary, then
advance the slot cursor by one epoch (in `uint64`) to the next boundary. -/
def epochStep (slotsPerEpoch : Nat) (s : BeaconState) (b : EpochBalances) : BeaconState :=
  let s1 := processJustification slotsPerEpoch s
    b.thisEpochBoundaryAttestingBalance b.prevEpochBoundaryAttestingBalance
    b.prevTotalBalance b.totalBalance
  { s1 with slot := (s1.slot + slotsPerEpoch) % U64 }

/-- A sequence of epoch-processing transitions, one per element of `L`. -/
def epochSeq (slotsPerEpoch : Nat) (s : BeaconState) (L : List EpochBalances) : BeaconState :=
  L.foldl (epochStep slotsPerEpoch) s

/-- States from which the finalized epoch can never move backwards: the
current epoch is at least 4, the finalized epoch is at least two epochs old,
and a finalized epoch exactly two epochs old can only have been produced by
the pass that also justified the last epoch. -/
def finalityInvariant (slotsPerEpoch : Nat) (s : BeaconState) : Prop :=
  4 ≤ currentEpoch slotsPerEpoch s ∧
  s.finalizedEpoch + 2 ≤ currentEpoch slotsPerEpoch s ∧
  (s.finalizedEpoch = currentEpoch slotsPerEpoch s - 2 →
    s.justifiedEpoch = currentEpoch slotsPerEpoch s - 1 ∧
    s.previousJustifiedEpoch = currentEpoch slotsPerEpoch s - 2)

instance finalityInvariantDecidable (spe : Nat) (s : BeaconState) :
    Decidable (finalityInvariant spe s) := by
  unfold finalityInvariant; infer_instance

/-- DepositTrie (`shared/trie/deposit_trie.go`): deposit count plus the
node-index-to-hash map; reading an absent map entry yields the 32-byte zero
value, as Go map reads do. -/
structure DepositTrie where
  depositCount : Nat
  merkleHashes : Nat → List Nat

/-- `NewDepositTrie` (`shared/trie/deposit_trie.go`): the empty trie. -/
def newDepositTrie : DepositTrie :=
  { depositCount := 0, merkleHashes := fun _ => List.replicate 32 0 }

/-- The ancestor-recomputation loop of `UpdateDepositTrie`: `depth` times,
halve the index and rehash the concatenation of the two children. -/
def updateLoop (H : List Nat → List Nat) :
    Nat → (Nat → List Nat) → Nat → (Nat → List Nat)
  | 0, m, _ => m
  | i + 1, m, idx =>
    let idx2 := idx / 2
    let v := H (m (idx2 * 2) ++ m (idx2 * 2 + 1))
    updateLoop H i (fun j => if j = idx2 then v else m j) idx2

/-- `UpdateDepositTrie` (`shared/trie/deposit_trie.go`): hash the deposit data
into leaf slot `depositCount + 2^depth`, recompute every ancestor up to the
root, and increment the count.  `H` stands for `hashutil.Hash` and `depth` for
`params.BeaconConfig().DepositContractTreeDepth`, neither of which is among
the provided sources. -/
def updateDepositTrie (H : List Nat → List Nat) (depth : Nat)
    (t : DepositTrie) (depositData : List Nat) : DepositTrie :=
  let index := t.depositCount + 2 ^ depth
  let m0 := fun j => if j = index then H depositData else t.merkleHashes j
  { depositCount := t.depositCount + 1
    merkleHashes := updateLoop H depth m0 index }

/-- The sibling-collection loop of `GenerateMerkleBranch`: at each level emit
the sibling chosen by the parity of the node index, then halve the index. -/
def branchLoop (m : Nat → List Nat) : Nat → Nat → List (List Nat)
  | 0, _ => []
  | i + 1, idx =>
    (if idx % 2 = 1 then m (idx - 1) else m (idx + 1)) :: branchLoop m i (idx / 2)

/-- `GenerateMerkleBranch` (`shared/trie/deposit_trie.go`): the inclusion
branch for the leaf at `index`. -/
def generateMerkleBranch (depth : Nat) (t : DepositTrie) (index : Nat) :
    List (List Nat) :=
  branchLoop t.merkleHashes depth (index + 2 ^ depth)

/-- `Root` (`shared/trie/deposit_trie.go`): the value at node index 1. -/
def rootOfDepositTrie (t : DepositTrie) : List Nat :=
  t.merkleHashes 1

/-- The recombination loop of `VerifyMerkleBranch`.  The Go loop body never
halves `idx`, so the concatenation order decided by the leaf-level parity is
reused at every level; the loop runs `depth` times over the branch. -/
def verifyLoop (H : List Nat → List Nat) (oddIdx : Bool) :
    List (List Nat) → List Nat → List Nat
  | [], value => value
  | b :: bs, value =>
    verifyLoop H oddIdx bs (if oddIdx then H (b ++ value) else H (value ++ b))

/-- `VerifyMerkleBranch` (`shared/trie/deposit_trie.go`): recombine the leaf
with `depth` branch hashes and compare with the expected root, the
concatenation order decided once by the parity of `index + 2^configDepth`. -/
def verifyMerkleBranch (H : List Nat → List Nat) (configDepth : Nat)
    (leaf : List Nat) (branch : List (List Nat)) (depth index : Nat)
    (root : List Nat) : Bool :=
  verifyLoop H (decide ((index + 2 ^ configDepth) % 2 = 1))
    (branch.take depth) leaf == root

/-- The concrete hash instantiation used to evaluate the accumulator: the
identity on byte strings, which keeps every concatenation observable. -/
def idHash : List Nat → List Nat := fun l => l

/-- The accumulator after inserting two distinct deposits at depth 2. -/
def c3Trie : DepositTrie :=
  updateDepositTrie idHash 2 (updateDepositTrie idHash 2 newDepositTrie [1]) [2]

/-- Modelled from the spec: `bytesutil.LowerThan` (not among the provided
sources) — the strict lexicographic order on byte strings used as the
consensus tie-break, a shorter strict prefix counting as lower. -/
def lexLt : List Nat → List Nat → Bool
  | _, [] => false
  | [], _ :: _ => true
  | a :: as, b :: bs =>
    if a < b then true else if b < a then false else lexLt as bs

/-- The winner-replacement condition of the `winningRoot` loop
(`beacon-chain/core/epoch/epoch_operations.go`):
`rootBalance > winnerBalance || (rootBalance == winnerBalance &&
LowerThan(candidateRoot, winnerRoot))`, phrased on (balance, root) pairs. -/
def BeatsP (p q : Nat × List Nat) : Prop :=
  p.1 > q.1 ∨ (p.1 = q.1 ∧ lexLt p.2 q.2 = true)

instance beatsPDecidable (p q : Nat × List Nat) : Decidable (BeatsP p q) := by
  unfold BeatsP; infer_instance

/-- One iteration of the `winningRoot` candidate loop: compute the candidate's
attesting balance and replace the tracked winner when the candidate beats
it. -/
def winnerStep (balanceOf : List Nat → Nat) (w : Nat × List Nat)
    (c : List Nat) : Nat × List Nat :=
  let rootBalance := balanceOf c
  if BeatsP (rootBalance, c) w then (rootBalance, c) else w

/-- The candidate-collection loop of `winningRoot`: the shard-block roots of
the current-epoch followed by the previous-epoch attestations whose shard
matches. -/
def candidateRoots (shard : Nat)
    (currentEpochAttestations prevEpochAttestations : List PendingAttestation) :
    List (List Nat) :=
  ((currentEpochAttestations ++ prevEpochAttestations).filter
    fun a => a.data.shard == shard).map
    fun a => a.data.shardBlockRootHash32

/-- `winningRoot` (`beacon-chain/core/epoch/epoch_operations.go`, lines
309-349): fold the candidate roots, starting from the nil root with balance 0,
keeping the root with the larger attesting balance and breaking balance ties
toward the lexicographically lower root.  `balanceOf` stands for the attesting
effective-balance computation (`validators.AttestingValidatorIndices` summed
with `EffectiveBalance`), whose sources are not provided. -/
def winningRoot (balanceOf : List Nat → Nat) (shard : Nat)
    (currentEpochAttestations prevEpochAttestations : List PendingAttestation) :
    List Nat :=
  ((candidateRoots shard currentEpochAttestations prevEpochAttestations).foldl
    (winnerStep balanceOf) (0, [])).2

/-- `CurrentBoundaryAttestations`
(`beacon-chain/core/epoch/epoch_operations.go`, lines 46-67): walk the
current-epoch attestations, keeping those whose justified block root equals
the canonical root at slot `boundarySlot` — a variable the Go source declares
but never assigns, so it stays 0 — and whose justified epoch equals the
state's justified epoch.  `blockRoot` stands for `block.BlockRoot`, whose
source is not provided. -/
def currentBoundaryAttestations
    (blockRoot : BeaconState → Nat → Except TErr (List Nat))
    (state : BeaconState) :
    List PendingAttestation → Except TErr (List PendingAttestation)
  | [] => Except.ok []
  | a :: rest =>
    match blockRoot state 0 with
    | Except.error e => Except.error e
    | Except.ok boundaryBlockRoot =>
      match currentBoundaryAttestations blockRoot state rest with
      | Except.error e => Except.error e
      | Except.ok tail =>
        if a.data.justifiedBlockRootHash32 = boundaryBlockRoot ∧
            a.data.justifiedEpoch = state.justifiedEpoch then
          Except.ok (a :: tail)
        else Except.ok tail

/-- A canonical block-root lookup fixture: root `[0]` at slot 0, root `[1]` at
slot 320 (the first slot of epoch 5 with 64 slots per epoch), nothing else
retained. -/
def c7BlockRoot : BeaconState → Nat → Except TErr (List Nat) := fun _ sl =>
  if sl = 0 then Except.ok [0]
  else if sl = 320 then Except.ok [1]
  else Except.error (TErr.missingRoot sl)

/-- A state at slot 320 (epoch 5) with justified epoch 9. -/
def c7State : BeaconState := ⟨320, 0, 0, 9, 0, 0, 0, [], ⟨[], []⟩, []⟩

/-- A current-epoch attestation whose epoch-boundary root matches the
canonical root at the epoch's first slot and whose justified epoch matches
the state, but whose justified block root differs from the root at slot 0. -/
def c7Att : PendingAttestation := ⟨⟨320, 0, 9, [7], [1], [], []⟩⟩

/-- `CanProcessValidatorRegistry`
(`beacon-chain/core/epoch/epoch_processing.go`, lines 55-72): the finalized
epoch must be newer than the registry-update epoch, and the loop walks
`i = startShard, startShard+1, ..., shardsProcessed-1` — exactly as the Go
`for i := startShard; i < shardsProcessed; i++` does — requiring the
crosslink at shard `i % SHARD_COUNT` to be newer than the registry-update
epoch.  `currentEpochCommitteeCount` stands for the value of
`helpers.CurrentEpochCommitteeCount(state)`, whose source is not provided. -/
def canProcessValidatorRegistry (slotsPerEpoch shardCount : Nat)
    (currentEpochCommitteeCount : Nat) (s : BeaconState) : Bool :=
  if s.finalizedEpoch ≤ s.validatorRegistryUpdateEpoch then false
  else
    let shardsProcessed := (currentEpochCommitteeCount * slotsPerEpoch) % U64
    let startShard := s.currentShufflingStartShard
    (List.range' startShard (shardsProcessed - startShard)).all fun i =>
      decide (s.validatorRegistryUpdateEpoch <
        (s.latestCrosslinks.getD (i % shardCount) ⟨0, []⟩).epoch)

/-- A state with finalized epoch 2, registry-update epoch 1, shuffling start
shard 5 and eight crosslinks all stale at epoch 0. -/
def c8State : BeaconState :=
  ⟨0, 0, 0, 0, 2, 1, 5, List.replicate 8 ⟨0, []⟩, ⟨[], []⟩, []⟩

/-- Setting bit 1 does not change the parity of a natural number. -/
theorem lorTwoParity (x : Nat) : (x ||| 2) % 2 = x % 2 := by
  have h := Nat.testBit_lor x 2 0
  rw [Nat.testBit_zero, Nat.testBit_zero, Nat.testBit_zero, ← Bool.decide_or] at h
  have h2 := decide_eq_decide.mp h
  omega

/-- The shifted bitfield `(bf << 1) % 2^64` is always even. -/
theorem shiftedBitfieldEven (bf : Nat) : (bf * 2) % U64 % 2 = 0 := by
  unfold U64
  omega

theorem processJustification_finalized_mono (spe : Nat) (s : BeaconState)
    (cb pb ptb tb : Nat) (hI : finalityInvariant spe s) :
    s.finalizedEpoch ≤ (processJustification spe s cb pb ptb tb).finalizedEpoch := by
  obtain ⟨h4, hF, hEq⟩ := hI
  rcases em (s.finalizedEpoch = currentEpoch spe s - 2) with hF2 | hF2
  · obtain ⟨hA, hP⟩ := hEq hF2
    simp only [processJustification, prevEpoch]
    split_ifs <;> omega
  · simp only [processJustification, prevEpoch]
    split_ifs <;> omega

theorem processJustification_finalized_bound (spe : Nat) (s : BeaconState)
    (cb pb ptb tb : Nat) (hI : finalityInvariant spe s) :
    (processJustification spe s cb pb ptb tb).finalizedEpoch ≤ currentEpoch spe s - 1 := by
  obtain ⟨h4, hF, hEq⟩ := hI
  simp only [processJustification, prevEpoch]
  split_ifs <;> omega

theorem processJustification_finalized_top (spe : Nat) (s : BeaconState)
    (cb pb ptb tb : Nat) (hI : finalityInvariant spe s)
    (hTop : (processJustification spe s cb pb ptb tb).finalizedEpoch =
      currentEpoch spe s - 1) :
    (processJustification spe s cb pb ptb tb).justifiedEpoch = currentEpoch spe s ∧
    (processJustification spe s cb pb ptb tb).previousJustifiedEpoch =
      currentEpoch spe s - 1 := by
  obtain ⟨h4, hF, hEq⟩ := hI
  by_cases hc : currJustCond cb tb
  · simp only [processJustification, prevEpoch, if_pos hc] at hTop ⊢
    split_ifs at hTop <;> first | omega | exact ⟨trivial, by omega⟩
  · exfalso
    have hb2 : ((s.justificationBitfield * 2) % U64 ||| 2) % 2 = 0 := by
      rw [lorTwoParity]; exact shiftedBitfieldEven _
    have hb1 : (s.justificationBitfield * 2) % U64 % 2 = 0 := shiftedBitfieldEven _
    simp only [processJustification, prevEpoch, if_neg hc] at hTop
    split_ifs at hTop <;> omega

theorem epochStep_slot (spe : Nat) (s : BeaconState) (b : EpochBalances)
    (hw : s.slot + spe < U64) : (epochStep spe s b).slot = s.slot + spe := by
  simp only [epochStep, processJustification]
  exact Nat.mod_eq_of_lt hw

theorem currentEpoch_epochStep (spe : Nat) (hspe : 0 < spe) (s : BeaconState)
    (b : EpochBalances) (hw : s.slot + spe < U64) :
    currentEpoch spe (epochStep spe s b) = currentEpoch spe s + 1 := by
  have h := epochStep_slot spe s b hw
  simp only [currentEpoch, h]
  exact Nat.add_div_right _ hspe

theorem epochStep_finalized_mono (spe : Nat) (s : BeaconState) (b : EpochBalances)
    (hI : finalityInvariant spe s) :
    s.finalizedEpoch ≤ (epochStep spe s b).finalizedEpoch :=
  processJustification_finalized_mono spe s _ _ _ _ hI

theorem epochStep_inv (spe : Nat) (hspe : 0 < spe) (s : BeaconState)
    (b : EpochBalances) (hw : s.slot + spe < U64) (hI : finalityInvariant spe s) :
    finalityInvariant spe (epochStep spe s b) := by
  have hc := currentEpoch_epochStep spe hspe s b hw
  have hbound := processJustification_finalized_bound spe s
    b.thisEpochBoundaryAttestingBalance b.prevEpochBoundaryAttestingBalance
    b.prevTotalBalance b.totalBalance hI
  have h4 := hI.1
  have hfin : (epochStep spe s b).finalizedEpoch =
      (processJustification spe s b.thisEpochBoundaryAttestingBalance
        b.prevEpochBoundaryAttestingBalance b.prevTotalBalance
        b.totalBalance).finalizedEpoch := rfl
  have hjust : (epochStep spe s b).justifiedEpoch =
      (processJustification spe s b.thisEpochBoundaryAttestingBalance
        b.prevEpochBoundaryAttestingBalance b.prevTotalBalance
        b.totalBalance).justifiedEpoch := rfl
  have hpjust : (epochStep spe s b).previousJustifiedEpoch =
      (processJustification spe s b.thisEpochBoundaryAttestingBalance
        b.prevEpochBoundaryAttestingBalance b.prevTotalBalance
        b.totalBalance).previousJustifiedEpoch := rfl
  refine ⟨?_, ?_, ?_⟩
  · rw [hc]; omega
  · rw [hc, hfin]; omega
  · intro hTop
    rw [hc, hfin] at hTop
    have hTop2 : (processJustification spe s b.thisEpochBoundaryAttestingBalance
        b.prevEpochBoundaryAttestingBalance b.prevTotalBalance
        b.totalBalance).finalizedEpoch = currentEpoch spe s - 1 := by
      omega
    have hconc := processJustification_finalized_top spe s
      b.thisEpochBoundaryAttestingBalance b.prevEpochBoundaryAttestingBalance
      b.prevTotalBalance b.totalBalance hI hTop2
    constructor
    · rw [hc, hjust, hconc.1]; omega
    · rw [hc, hpjust, hconc.2]; omega

/-- C4 (amended): along any sequence of epoch-processing transitions starting
from a state satisfying `finalityInvariant` (current epoch at least 4,
finalized epoch at least two epochs old, and a two-epoch-old finalized epoch
only together with a justified last epoch), with slots staying below the
`uint64` wrap, the finalized epoch never decreases. -/
theorem epochSeq_finalizedEpoch_monotone (spe : Nat) (s : BeaconState)
    (L : List EpochBalances) (hspe : 0 < spe) (hI : finalityInvariant spe s)
    (hw : s.slot + L.length * spe < U64) :
    s.finalizedEpoch ≤ (epochSeq spe s L).finalizedEpoch := by
  induction L generalizing s with
  | nil => exact Nat.le_refl _
  | cons b L ih =>
    have hw1 : s.slot + spe < U64 := by
      have : (b :: L).length * spe = spe + L.length * spe := by
        simp [List.length_cons]; ring
      omega
    have hstep := epochStep_finalized_mono spe s b hI
    have hI2 := epochStep_inv spe hspe s b hw1 hI
    have hw2 : (epochStep spe s b).slot + L.length * spe < U64 := by
      rw [epochStep_slot spe s b hw1]
      have : (b :: L).length * spe = spe + L.length * spe := by
        simp [List.length_cons]; ring
      omega
    calc s.finalizedEpoch ≤ (epochStep spe s b).finalizedEpoch := hstep
      _ ≤ (epochSeq spe (epochStep spe s b) L).finalizedEpoch := ih _ hI2 hw2

/-- C4 (witness): the monotonicity theorem applied at a concrete state with
current epoch 4 and one epoch transition. -/
theorem epochSeq_finalizedEpoch_monotone_witness :
    finalityInvariant 64 ⟨256, 0, 0, 0, 0, 0, 0, [], ⟨[], []⟩, []⟩ ∧
    (⟨256, 0, 0, 0, 0, 0, 0, [], ⟨[], []⟩, []⟩ : BeaconState).finalizedEpoch ≤
      (epochSeq 64 ⟨256, 0, 0, 0, 0, 0, 0, [], ⟨[], []⟩, []⟩
        [⟨0, 0, 1, 1⟩]).finalizedEpoch :=
  ⟨by decide, epochSeq_finalizedEpoch_monotone 64 _ _ (by decide) (by decide)
    (by decide)⟩

/-- C4 (counterexample): from an arbitrary starting state the claim fails: a
state at epoch 5 with finalized epoch 100 and a justification bitfield
pattern matching the second finality rule has its finalized epoch rewritten
to 3 by a single epoch transition. -/
theorem epochSeq_finalizedEpoch_not_monotone :
    (epochSeq 64 ⟨320, 3, 3, 0, 100, 0, 0, [], ⟨[], []⟩, []⟩
        [⟨0, 0, 1, 1⟩]).finalizedEpoch <
      (⟨320, 3, 3, 0, 100, 0, 0, [], ⟨[], []⟩, []⟩ : BeaconState).finalizedEpoch := by
  decide

/-- A left fold that replaces the accumulator with `f v` at every element
satisfying `p` returns `f` of the last such element, or the initial value when
there is none. -/
theorem foldl_lastWins {α β : Type} (p : α → Bool) (f : α → β) :
    ∀ (l : List α) (init : β),
      l.foldl (fun acc v => if p v then f v else acc) init =
        ((l.reverse.find? p).map f).getD init := by
  intro l
  induction l with
  | nil => intro init; rfl
  | cons x xs ih =>
    intro init
    simp only [List.foldl_cons, List.reverse_cons, List.find?_append]
    cases hfind : xs.reverse.find? p with
    | some v => simp [ih, hfind]
    | none =>
      cases hx : p x with
      | true => simp [ih, hfind, List.find?, hx]
      | false => simp [ih, hfind, List.find?, hx]

/-- C6 (amended): the justification step shifts the bitfield left by one bit
(modulo 2^64, so the new low bit is 0), sets bit 1 and records the previous
epoch as the justified candidate when the `uint64`-computed products satisfy
`3*prevBoundary ≥ 2*prevTotal`, sets bit 0 and records the current epoch when
they satisfy `3*currBoundary ≥ 2*total`, the current-epoch candidate winning
when both conditions hold; the old justified epoch becomes the previous
justified epoch. -/
theorem processJustification_characterization (spe : Nat) (s : BeaconState)
    (cb pb ptb tb : Nat) :
    (processJustification spe s cb pb ptb tb).justificationBitfield =
      (((s.justificationBitfield * 2) % U64 |||
        (if prevJustCond pb ptb then 2 else 0)) |||
        (if currJustCond cb tb then 1 else 0)) ∧
    (s.justificationBitfield * 2) % U64 % 2 = 0 ∧
    (processJustification spe s cb pb ptb tb).previousJustifiedEpoch =
      s.justifiedEpoch ∧
    (processJustification spe s cb pb ptb tb).justifiedEpoch =
      (if currJustCond cb tb then currentEpoch spe s
       else if prevJustCond pb ptb then prevEpoch spe s
       else s.justifiedEpoch) := by
  refine ⟨?_, shiftedBitfieldEven _, rfl, rfl⟩
  by_cases hp : prevJustCond pb ptb <;> by_cases hc : currJustCond cb tb <;>
    simp [processJustification, hp, hc]

/-- C6 (counterexample): with balances whose products overflow `uint64`, the
mathematical condition `3*prevBoundary ≥ 2*prevTotal` holds, yet the code
leaves bit 1 unset and the justified epoch unchanged, because it compares the
wrapped products `1 ≥ 6`. -/
theorem processJustification_overflow_counterexample :
    3 * 12297829382473034411 ≥ 2 * 9223372036854775811 ∧
    (processJustification 64 ⟨320, 0, 0, 0, 0, 0, 0, [], ⟨[], []⟩, []⟩
        0 12297829382473034411 9223372036854775811 1).justificationBitfield = 0 ∧
    (processJustification 64 ⟨320, 0, 0, 0, 0, 0, 0, [], ⟨[], []⟩, []⟩
        0 12297829382473034411 9223372036854775811 1).justifiedEpoch = 0 ∧
    prevEpoch 64 ⟨320, 0, 0, 0, 0, 0, 0, [], ⟨[], []⟩, []⟩ = 4 := by
  decide

/-- C10: the epoch-level eth1-data step clears the vote list unconditionally,
and the latest eth1 data ends up as the data of the last vote in list order
whose doubled count clears the voting-period slot budget, unchanged when no
vote qualifies. -/
theorem processEth1Data_clears_votes_and_adopts_last
    (spe epvp : Nat) (s : BeaconState) :
    (processEth1Data spe epvp s).eth1DataVotes = [] ∧
    (processEth1Data spe epvp s).latestEth1Data =
      ((s.eth1DataVotes.reverse.find? (eth1VoteQualifies spe epvp)).map
        Eth1DataVote.eth1Data).getD s.latestEth1Data :=
  ⟨rfl, by
    simpa [processEth1Data] using
      foldl_lastWins (eth1VoteQualifies spe epvp) Eth1DataVote.eth1Data
        s.eth1DataVotes s.latestEth1Data⟩

/-- C9 (amended): if some accumulated vote qualifies under the code's
`uint64`-computed threshold (`vote_count*2 mod 2^64` exceeding
`slotsPerEpoch*epochsPerEth1VotingPeriod mod 2^64`), then the eth1-data step
clears the vote list and adopts the eth1 data of a qualifying vote. -/
theorem processEth1Data_adopts_qualifying_vote (spe epvp : Nat)
    (s : BeaconState)
    (h : ∃ v ∈ s.eth1DataVotes, eth1VoteQualifies spe epvp v = true) :
    (processEth1Data spe epvp s).eth1DataVotes = [] ∧
    ∃ v ∈ s.eth1DataVotes, eth1VoteQualifies spe epvp v = true ∧
      (processEth1Data spe epvp s).latestEth1Data = v.eth1Data := by
  refine ⟨rfl, ?_⟩
  obtain ⟨v0, hv0, hq0⟩ := h
  have hex : ∃ x ∈ s.eth1DataVotes.reverse, eth1VoteQualifies spe epvp x := by
    exact ⟨v0, by simpa using hv0, hq0⟩
  have hsome := List.find?_isSome.mpr hex
  obtain ⟨w, hw⟩ := Option.isSome_iff_exists.mp hsome
  refine ⟨w, ?_, List.find?_some hw, ?_⟩
  · have := List.mem_of_find?_eq_some hw
    simpa using this
  · have h2 := (processEth1Data_clears_votes_and_adopts_last spe epvp s).2
    rw [h2, hw]
    rfl

/-- C9 (witness): the qualifying-vote theorem applied to a state with one vote
whose doubled count 2 exceeds the slot budget 1. -/
theorem processEth1Data_adopts_qualifying_vote_witness :
    (∃ v ∈ (⟨0, 0, 0, 0, 0, 0, 0, [], ⟨[], []⟩,
        [⟨⟨[5], [6]⟩, 1⟩]⟩ : BeaconState).eth1DataVotes,
      eth1VoteQualifies 1 1 v = true) ∧
    ((processEth1Data 1 1 ⟨0, 0, 0, 0, 0, 0, 0, [], ⟨[], []⟩,
        [⟨⟨[5], [6]⟩, 1⟩]⟩).eth1DataVotes = [] ∧
    ∃ v ∈ (⟨0, 0, 0, 0, 0, 0, 0, [], ⟨[], []⟩,
        [⟨⟨[5], [6]⟩, 1⟩]⟩ : BeaconState).eth1DataVotes,
      eth1VoteQualifies 1 1 v = true ∧
      (processEth1Data 1 1 ⟨0, 0, 0, 0, 0, 0, 0, [], ⟨[], []⟩,
        [⟨⟨[5], [6]⟩, 1⟩]⟩).latestEth1Data = v.eth1Data) :=
  ⟨by decide, processEth1Data_adopts_qualifying_vote 1 1 _ (by decide)⟩

/-- C9 (counterexample): a vote with count 2^63 exceeds the slot budget 1024
once doubled mathematically, yet the code leaves the latest eth1 data
unchanged because the doubling wraps to 0 in `uint64`. -/
theorem processEth1Data_overflow_counterexample :
    2 * 9223372036854775808 > 64 * 16 ∧
    (processEth1Data 64 16 ⟨0, 0, 0, 0, 0, 0, 0, [], ⟨[0], [0]⟩,
        [⟨⟨[1], [1]⟩, 9223372036854775808⟩]⟩).latestEth1Data = ⟨[0], [0]⟩ ∧
    (⟨[0], [0]⟩ : Eth1Data) ≠ ⟨[1], [1]⟩ := by
  decide

/-- C2: block application is atomic: `processBlock` returns a state exactly
when the slot matches, the (optionally skipped) signature check passes and
every operation step succeeds in order, and the returned state is the full
composition of all steps; on any step failure only an error is returned, so a
partially processed state is never observable and the caller keeps the
pre-call state value. -/
theorem processBlock_atomicity (steps : BlockSteps) (vs : Bool)
    (s : BeaconState) (b : BeaconBlock) (sFin : BeaconState) :
    processBlock steps vs s b = Except.ok sFin ↔
      (b.slot = s.slot ∧
       (if vs then steps.verifyProposerSignature b else Except.ok ()) =
         Except.ok () ∧
       ∃ s1 s2 s4 s5 s6,
         steps.processBlockRandao s b = Except.ok s1 ∧
         steps.processProposerSlashings s1 b vs = Except.ok s2 ∧
         steps.processAttesterSlashings (steps.processEth1DataVote s2 b) b vs =
           Except.ok s4 ∧
         steps.processBlockAttestations s4 b vs = Except.ok s5 ∧
         steps.processValidatorDeposits s5 b = Except.ok s6 ∧
         steps.processValidatorExits s6 b vs = Except.ok sFin) := by
  constructor
  · intro h
    unfold processBlock at h
    by_cases hslot : b.slot ≠ s.slot
    · rw [if_pos hslot] at h
      simp at h
    · rw [if_neg hslot] at h
      push_neg at hslot
      refine ⟨hslot, ?_⟩
      cases hsig : (if vs then steps.verifyProposerSignature b
          else Except.ok ()) with
      | error e => rw [hsig] at h; simp at h
      | ok u =>
        rw [hsig] at h
        cases u
        refine ⟨rfl, ?_⟩
        cases h1 : steps.processBlockRandao s b with
        | error e => rw [h1] at h; simp at h
        | ok s1 =>
          rw [h1] at h
          simp only [] at h
          cases h2 : steps.processProposerSlashings s1 b vs with
          | error e => rw [h2] at h; simp at h
          | ok s2 =>
            rw [h2] at h
            simp only [] at h
            cases h3 : steps.processAttesterSlashings
                (steps.processEth1DataVote s2 b) b vs with
            | error e => rw [h3] at h; simp at h
            | ok s4 =>
              rw [h3] at h
              simp only [] at h
              cases h4 : steps.processBlockAttestations s4 b vs with
              | error e => rw [h4] at h; simp at h
              | ok s5 =>
                rw [h4] at h
                simp only [] at h
                cases h5 : steps.processValidatorDeposits s5 b with
                | error e => rw [h5] at h; simp at h
                | ok s6 =>
                  rw [h5] at h
                  simp only [] at h
                  cases h6 : steps.processValidatorExits s6 b vs with
                  | error e => rw [h6] at h; simp at h
                  | ok s7 =>
                    rw [h6] at h
                    simp only [Except.ok.injEq] at h
                    exact ⟨s1, s2, s4, s5, s6, rfl, h2, h3, h4, h5, h ▸ h6⟩
  · rintro ⟨hslot, hsig, s1, s2, s4, s5, s6, h1, h2, h3, h4, h5, h6⟩
    simp [processBlock, hslot, hsig, h1, h2, h3, h4, h5, h6]

/-- C1 (code evaluation at the failing input): starting at slot 63 with
`EPOCH_LENGTH = 64` and no block, the claimed trigger `(63+1) % 64 == 0`
holds, yet the transition result does not depend on the epoch processor at
all and equals the merely slot-advanced, block-roots-updated state: the epoch
pass is not performed. -/
theorem executeStateTransition_no_epoch_without_block (steps : BlockSteps)
    (pbr : BeaconState → List Nat → BeaconState)
    (pe pe2 : BeaconState → Except TErr BeaconState) (vs : Bool) (r : List Nat) :
    (63 + 1) % 64 = 0 ∧
    executeStateTransition steps pbr pe 64 vs
        ⟨63, 0, 0, 0, 0, 0, 0, [], ⟨[], []⟩, []⟩ r none =
      executeStateTransition steps pbr pe2 64 vs
        ⟨63, 0, 0, 0, 0, 0, 0, [], ⟨[], []⟩, []⟩ r none ∧
    executeStateTransition steps pbr pe 64 vs
        ⟨63, 0, 0, 0, 0, 0, 0, [], ⟨[], []⟩, []⟩ r none =
      Except.ok (pbr ⟨64, 0, 0, 0, 0, 0, 0, [], ⟨[], []⟩, []⟩ r) := by
  refine ⟨rfl, rfl, ?_⟩
  have h64 : (63 + 1) % U64 = 64 := by decide
  simp [executeStateTransition, h64]

/-- C3 (code evaluation at the failing input): after inserting two deposits at
tree depth 2, the branch round-trip fails for index 1: `VerifyMerkleBranch`
keeps the leaf-level parity at every level (the Go loop never halves `idx`),
so level 1 is recombined in the wrong order and the recomputed root differs
from the accumulator root. -/
theorem verifyMerkleBranch_roundTrip_fails :
    c3Trie.depositCount = 2 ∧
    verifyMerkleBranch idHash 2 (idHash [2]) (generateMerkleBranch 2 c3Trie 1)
        2 1 (rootOfDepositTrie c3Trie) = false := by
  decide

theorem lexLt_irrefl : ∀ l : List Nat, lexLt l l = false
  | [] => rfl
  | a :: as => by simp [lexLt, lexLt_irrefl as]

theorem lexLt_trans : ∀ x y z : List Nat,
    lexLt x y = true → lexLt y z = true → lexLt x z = true := by
  intro x
  induction x with
  | nil =>
    intro y z hxy hyz
    cases z with
    | nil =>
      cases y with
      | nil => simp [lexLt] at hxy
      | cons b bs => simp [lexLt] at hyz
    | cons c cs => simp [lexLt]
  | cons a as ih =>
    intro y z hxy hyz
    cases y with
    | nil => simp [lexLt] at hxy
    | cons b bs =>
      cases z with
      | nil => simp [lexLt] at hyz
      | cons c cs =>
        simp only [lexLt] at hxy hyz ⊢
        rcases Nat.lt_trichotomy a b with h1 | h1 | h1 <;>
          rcases Nat.lt_trichotomy b c with h2 | h2 | h2 <;>
            simp_all [Nat.lt_asymm, Nat.lt_irrefl] <;>
            first
              | omega
              | exact ih bs cs hxy hyz

theorem lexLt_total : ∀ x y : List Nat,
    x = y ∨ lexLt x y = true ∨ lexLt y x = true := by
  intro x
  induction x with
  | nil =>
    intro y
    cases y with
    | nil => exact Or.inl rfl
    | cons b bs => exact Or.inr (Or.inl (by simp [lexLt]))
  | cons a as ih =>
    intro y
    cases y with
    | nil => exact Or.inr (Or.inr (by simp [lexLt]))
    | cons b bs =>
      rcases Nat.lt_trichotomy a b with h1 | h1 | h1
      · exact Or.inr (Or.inl (by simp [lexLt, h1]))
      · subst h1
        rcases ih bs with h2 | h2 | h2
        · exact Or.inl (by rw [h2])
        · exact Or.inr (Or.inl (by simp [lexLt, h2]))
        · exact Or.inr (Or.inr (by simp [lexLt, h2]))
      · exact Or.inr (Or.inr (by simp [lexLt, h1]))

theorem beatsP_trans {p q r : Nat × List Nat} (h1 : BeatsP p q)
    (h2 : BeatsP q r) : BeatsP p r := by
  rcases h1 with h1 | ⟨h1a, h1b⟩ <;> rcases h2 with h2 | ⟨h2a, h2b⟩
  · exact Or.inl (by omega)
  · exact Or.inl (by omega)
  · exact Or.inl (by omega)
  · exact Or.inr ⟨by omega, lexLt_trans _ _ _ h1b h2b⟩

theorem beatsP_asymm {p q : Nat × List Nat} (h1 : BeatsP p q) :
    ¬ BeatsP q p := by
  intro h2
  rcases h1 with h1 | ⟨h1a, h1b⟩ <;> rcases h2 with h2 | ⟨h2a, h2b⟩
  · omega
  · omega
  · omega
  · have := lexLt_trans _ _ _ h1b h2b
    rw [lexLt_irrefl] at this
    cases this

theorem winnerFold_inv (bal : List Nat → Nat) :
    ∀ (l : List (List Nat)) (acc : Nat × List Nat),
      (l.foldl (winnerStep bal) acc = acc ∧
        ∀ c ∈ l, ¬ BeatsP (bal c, c) acc) ∨
      ((l.foldl (winnerStep bal) acc).2 ∈ l ∧
        (l.foldl (winnerStep bal) acc).1 = bal (l.foldl (winnerStep bal) acc).2 ∧
        BeatsP (l.foldl (winnerStep bal) acc) acc ∧
        ∀ c ∈ l, ¬ BeatsP (bal c, c) (l.foldl (winnerStep bal) acc)) := by
  intro l
  induction l with
  | nil => intro acc; exact Or.inl ⟨rfl, by simp⟩
  | cons c l ih =>
    intro acc
    rw [List.foldl_cons]
    by_cases hc : BeatsP (bal c, c) acc
    · have hstep : winnerStep bal acc c = (bal c, c) := by
        simp only [winnerStep]
        rw [if_pos hc]
      rw [hstep]
      rcases ih (bal c, c) with ⟨heq, hall⟩ | ⟨hmem, hbal, hbeats, hall⟩
      · right
        rw [heq]
        refine ⟨List.mem_cons_self _ _, rfl, hc, ?_⟩
        intro c2 hc2
        rcases List.mem_cons.mp hc2 with rfl | hmem2
        · intro hb
          rcases hb with hb | ⟨hb1, hb2⟩
          · omega
          · rw [lexLt_irrefl] at hb2; cases hb2
        · exact hall _ hmem2
      · right
        refine ⟨List.mem_cons_of_mem _ hmem, hbal, beatsP_trans hbeats hc, ?_⟩
        intro c2 hc2
        rcases List.mem_cons.mp hc2 with rfl | hmem2
        · exact fun hb => beatsP_asymm hbeats hb
        · exact hall _ hmem2
    · have hstep : winnerStep bal acc c = acc := by
        simp only [winnerStep]
        rw [if_neg hc]
      rw [hstep]
      rcases ih acc with ⟨heq, hall⟩ | ⟨hmem, hbal, hbeats, hall⟩
      · left
        refine ⟨heq, ?_⟩
        intro c2 hc2
        rcases List.mem_cons.mp hc2 with rfl | hmem2
        · exact hc
        · exact hall _ hmem2
      · right
        refine ⟨List.mem_cons_of_mem _ hmem, hbal, hbeats, ?_⟩
        intro c2 hc2
        rcases List.mem_cons.mp hc2 with rfl | hmem2
        · exact fun hb => hc (beatsP_trans hb hbeats)
        · exact hall _ hmem2

/-- C5 (amended): whenever some candidate root has positive attesting balance,
`winningRoot` returns a candidate root of maximal attesting balance that no
equal-balance candidate undercuts lexicographically; any candidate with those
two properties equals it, so the result is independent of the order in which
candidates appear in the attestation lists. -/
theorem winningRoot_spec (bal : List Nat → Nat) (shard : Nat)
    (curr prev : List PendingAttestation)
    (h : ∃ c ∈ candidateRoots shard curr prev, 0 < bal c) :
    winningRoot bal shard curr prev ∈ candidateRoots shard curr prev ∧
    (∀ c ∈ candidateRoots shard curr prev,
      bal c ≤ bal (winningRoot bal shard curr prev)) ∧
    (∀ c ∈ candidateRoots shard curr prev,
      bal c = bal (winningRoot bal shard curr prev) →
        lexLt c (winningRoot bal shard curr prev) = false) ∧
    (∀ w2 ∈ candidateRoots shard curr prev,
      (∀ c ∈ candidateRoots shard curr prev, bal c ≤ bal w2) →
      (∀ c ∈ candidateRoots shard curr prev, bal c = bal w2 →
        lexLt c w2 = false) →
      w2 = winningRoot bal shard curr prev) := by
  obtain ⟨c0, hc0, hpos⟩ := h
  rcases winnerFold_inv bal (candidateRoots shard curr prev) (0, []) with
    ⟨heq, hall⟩ | ⟨hmem, hbal, hbeats, hall⟩
  · exact absurd (Or.inl hpos) (hall c0 hc0)
  · have hmax : ∀ c ∈ candidateRoots shard curr prev,
        bal c ≤ bal (winningRoot bal shard curr prev) := by
      intro c hc
      have hnb := hall c hc
      rw [BeatsP, not_or] at hnb
      have h1 := hnb.1
      simp only [winningRoot]
      omega
    have hlex : ∀ c ∈ candidateRoots shard curr prev,
        bal c = bal (winningRoot bal shard curr prev) →
          lexLt c (winningRoot bal shard curr prev) = false := by
      intro c hc hceq
      have hnb := hall c hc
      rw [BeatsP, not_or] at hnb
      have h2 := hnb.2
      rw [not_and] at h2
      by_contra hne
      have hlt : lexLt c (winningRoot bal shard curr prev) = true := by
        cases hval : lexLt c (winningRoot bal shard curr prev) with
        | false => exact absurd hval hne
        | true => rfl
      exact h2 (by simp only [winningRoot] at hceq ⊢; omega) hlt
    have hmemW : winningRoot bal shard curr prev ∈
        candidateRoots shard curr prev := hmem
    refine ⟨hmemW, hmax, hlex, ?_⟩
    intro w2 hw2 hw2max hw2lex
    have hbw : bal w2 = bal (winningRoot bal shard curr prev) :=
      Nat.le_antisymm (hmax w2 hw2) (hw2max _ hmemW)
    rcases lexLt_total w2 (winningRoot bal shard curr prev) with
      hEq | hlt | hgt
    · exact hEq
    · rw [hlex w2 hw2 hbw] at hlt
      cases hlt
    · rw [hw2lex _ hmemW hbw.symm] at hgt
      cases hgt

/-- C5 (witness): two candidates `[2]` and `[1]` with equal balance 5: the
characterization applies and in fact the lexicographically lower root `[1]`
is selected. -/
theorem winningRoot_spec_witness :
    (∃ c ∈ candidateRoots 0 [⟨⟨0, 0, 0, [], [], [], [2]⟩⟩]
        [⟨⟨0, 0, 0, [], [], [], [1]⟩⟩], 0 < (fun _ => 5 : List Nat → Nat) c) ∧
    winningRoot (fun _ => 5) 0 [⟨⟨0, 0, 0, [], [], [], [2]⟩⟩]
        [⟨⟨0, 0, 0, [], [], [], [1]⟩⟩] ∈
      candidateRoots 0 [⟨⟨0, 0, 0, [], [], [], [2]⟩⟩]
        [⟨⟨0, 0, 0, [], [], [], [1]⟩⟩] ∧
    winningRoot (fun _ => 5) 0 [⟨⟨0, 0, 0, [], [], [], [2]⟩⟩]
        [⟨⟨0, 0, 0, [], [], [], [1]⟩⟩] = [1] :=
  ⟨by decide,
   (winningRoot_spec (fun _ => 5) 0 [⟨⟨0, 0, 0, [], [], [], [2]⟩⟩]
      [⟨⟨0, 0, 0, [], [], [], [1]⟩⟩] (by decide)).1,
   by decide⟩

/-- C5 (counterexample): with a single candidate root `[1]` of zero attesting
balance, the loop's nil winner with balance 0 is never beaten, so
`winningRoot` returns the empty root, which is not the balance-maximizing
candidate the claim promises. -/
theorem winningRoot_zero_balance_counterexample :
    winningRoot (fun _ => 0) 0 [⟨⟨0, 0, 0, [], [], [], [1]⟩⟩] [] = [] ∧
    candidateRoots 0 [⟨⟨0, 0, 0, [], [], [], [1]⟩⟩] [] = [[1]] ∧
    ([] : List Nat) ≠ [1] := by
  decide

/-- C7 (code evaluation at the failing input): the attestation satisfies
exactly the claim's conditions — it sits in the current epoch, its
`epoch_boundary_root` equals the canonical root at the current epoch's first
slot and its `justified_epoch` equals the state's — yet the code returns the
empty set, because it compares `justified_block_root` against the root at
slot 0 instead. -/
theorem currentBoundaryAttestations_wrong_filter :
    currentBoundaryAttestations c7BlockRoot c7State [c7Att] = Except.ok [] ∧
    c7Att.data.slot / 64 = currentEpoch 64 c7State ∧
    c7BlockRoot c7State (startSlot 64 (currentEpoch 64 c7State)) =
      Except.ok c7Att.data.epochBoundaryRootHash32 ∧
    c7Att.data.justifiedEpoch = c7State.justifiedEpoch :=
  ⟨rfl, rfl, rfl, rfl⟩

/-- C8 (code evaluation at the failing input): with one committee per epoch
(`committeeCount * slotsPerEpoch = 1`) and start shard 5, the claim's touched
shard `(5 + 0) % 8 = 5` has a crosslink no newer than the registry-update
epoch, so the claim requires `false`; the Go loop runs from `i = 5` while
`i < 1`, checks nothing, and the code returns `true`. -/
theorem canProcessValidatorRegistry_skips_shards :
    canProcessValidatorRegistry 1 8 1 c8State = true ∧
    c8State.validatorRegistryUpdateEpoch < c8State.finalizedEpoch ∧
    (c8State.latestCrosslinks.getD
        ((c8State.currentShufflingStartShard + 0) % 8) ⟨0, []⟩).epoch ≤
      c8State.validatorRegistryUpdateEpoch ∧
    0 < 1 * 1 := by
  decide

end Prysm
